import Mathlib

/-!
Shallow embedding of the short-gen pipeline (src/main.py, src/subtitles.py,
src/converter.py, src/overlay.py, src/uploader.py) and proofs about its
subtitle-segmentation engine and pipeline orchestration.

Python floats are modelled as exact rationals (`ℚ`), Python strings as `String`
(or `List Char` where character-level slicing matters), Python lists as `List`.
The external collaborators (ffmpeg, ffprobe, faster-whisper, the YouTube API)
are modelled as oracle parameters: each stage receives the collaborator's
answer as data, and the file system is a list of the paths that exist.
-/

namespace ShortGen

/-! ### Data model: faster-whisper word and segment objects (inputs of subtitles.py) -/

/-- A word-level timestamp object as produced by faster-whisper: attributes
`start`, `end` (modelled as `end_`) and `word`. -/
structure Word where
  start : ℚ
  end_ : ℚ
  word : String
deriving DecidableEq

/-- A transcription segment as produced by faster-whisper: attributes `start`,
`end` (modelled as `end_`), `text` and `words` (the word list is empty when
word timestamps are unavailable, mirroring a `None`/empty attribute for which
`hasattr(segment, 'words') and segment.words` is falsy). -/
structure Segment where
  start : ℚ
  end_ : ℚ
  text : String
  words : List Word
deriving DecidableEq

/-- A subtitle chunk dict `{'start': ..., 'end': ..., 'text': ...}` built by
`split_into_chunks` and the segment loop of `generate_subtitles`. -/
structure Chunk where
  start : ℚ
  end_ : ℚ
  text : String
deriving DecidableEq

/-! ### Python string primitives

`str.strip()` and `str.split()` are modelled character-listwise so that all
definitions compute by structural recursion. -/

/-- Python `str.strip()`: remove leading and trailing whitespace. -/
def py_strip (s : String) : String :=
  String.mk (((s.toList.dropWhile Char.isWhitespace).reverse.dropWhile Char.isWhitespace).reverse)

/-- Split a character list at every character satisfying `p` (every separator
character ends the current group, like repeated application of `String.splitOn`
for a one-character separator). -/
def split_on_pred (p : Char → Bool) : List Char → List (List Char)
  | [] => [[]]
  | c :: cs =>
    match split_on_pred p cs with
    | [] => [[]]
    | g :: gs => if p c then [] :: g :: gs else (c :: g) :: gs

/-- Python `str.split()` with no argument: split on whitespace runs and drop
the empty pieces. -/
def py_split (s : String) : List String :=
  ((split_on_pred Char.isWhitespace s.toList).filter (fun g => g ≠ [])).map String.mk

/-- Python `sep.join(parts)`. -/
def py_join (sep : String) (parts : List String) : String :=
  String.mk (List.intercalate sep.toList (parts.map String.toList))

/-! ### subtitles.py: `split_into_chunks` (lines 12-46) -/

/-- The chunk record built from a non-empty `current_chunk` word list
(subtitles.py lines 31-35 and 40-44): `start` of the first word, `end` of the
last word, the words' texts each stripped and joined by one space.  The `[]`
case is unreachable in `split_into_chunks` (both build sites have a non-empty
`current_chunk`). -/
def chunkOf : List Word → Chunk
  | [] => ⟨0, 0, ""⟩
  | w :: ws =>
    ⟨w.start, (ws.getLastD w).end_,
      py_join " " ((w :: ws).map (fun x => py_strip x.word))⟩

/-- The `for word in words` loop of `split_into_chunks`, carrying
`current_chunk` as the accumulator; a chunk is flushed as soon as
`len(current_chunk) >= max_words`, and the trailing partial chunk is flushed
after the loop (`max_words` is a Python `int`, hence `ℤ`). -/
def split_go (max_words : ℤ) (current_chunk : List Word) : List Word → List Chunk
  | [] => if current_chunk = [] then [] else [chunkOf current_chunk]
  | w :: ws =>
    let cur := current_chunk ++ [w]
    if (cur.length : ℤ) ≥ max_words then chunkOf cur :: split_go max_words [] ws
    else split_go max_words cur ws

/-- subtitles.py `split_into_chunks(words, max_words)`. -/
def split_into_chunks (words : List Word) (max_words : ℤ) : List Chunk :=
  split_go max_words [] words

/-- Specification-side mirror of `split_go` that keeps the word groups
themselves instead of the chunks built from them: it partitions with exactly
the same accumulator discipline, so `split_go` is its image under
`chunkOf`. -/
def groups_go (max_words : ℤ) (current_chunk : List Word) : List Word → List (List Word)
  | [] => if current_chunk = [] then [] else [current_chunk]
  | w :: ws =>
    let cur := current_chunk ++ [w]
    if (cur.length : ℤ) ≥ max_words then cur :: groups_go max_words [] ws
    else groups_go max_words cur ws

/-- The word groups underlying `split_into_chunks words max_words`. -/
def groups_of (max_words : ℤ) (words : List Word) : List (List Word) :=
  groups_go max_words [] words

/-- The chunk-count law of the word-list segmentation path (C3), for a word
list and a words-per-cue bound `k`: the cues are exactly the `chunkOf` images
of the underlying groups; the groups concatenate back to the word list; there
are exactly `⌈N/k⌉ = (N + k - 1) / k` of them; each is non-empty with at most
`k` words and all but possibly the last have exactly `k`; and each cue takes
its `start` from its group's first word, its `end` from its group's last word,
and its text joins the group's individually stripped word texts with single
spaces. -/
def ChunkLaw (words : List Word) (k : ℕ) : Prop :=
  split_into_chunks words (k : ℤ) = (groups_of (k : ℤ) words).map chunkOf ∧
  (groups_of (k : ℤ) words).flatten = words ∧
  (groups_of (k : ℤ) words).length = (words.length + k - 1) / k ∧
  (∀ g ∈ groups_of (k : ℤ) words, g ≠ [] ∧ g.length ≤ k) ∧
  (∀ g ∈ (groups_of (k : ℤ) words).dropLast, g.length = k) ∧
  (∀ w ws, (w :: ws) ∈ groups_of (k : ℤ) words →
    chunkOf (w :: ws) =
      ⟨w.start, (ws.getLastD w).end_, py_join " " ((w :: ws).map (fun x => py_strip x.word))⟩)

/-! ### subtitles.py: the segment loop of `generate_subtitles` (lines 91-120) -/

/-- The fallback windowing loop
`for i in range(0, len(words), max_words)` (subtitles.py lines 106-114): window
`i` takes `chunk_words = words[i:i+max_words]`, `start = segment.start +
i*time_per_word`, `end = segment.start + (i + len(chunk_words))*time_per_word`.
The first argument iterates the words not yet consumed, `i` is the running
index, and `fuel` (initially the word count) bounds the recursion; for
`max_words ≥ 1` the fuel is never exhausted before the list is. -/
def fallback_go (seg_start time_per_word : ℚ) (max_words : ℕ) :
    ℕ → ℕ → List String → List Chunk
  | 0, _, _ => []
  | _, _, [] => []
  | fuel + 1, i, w :: ws =>
    let chunk_words := (w :: ws).take max_words
    ⟨seg_start + (i : ℚ) * time_per_word,
     seg_start + ((i : ℚ) + (chunk_words.length : ℚ)) * time_per_word,
     py_join " " chunk_words⟩
      :: fallback_go seg_start time_per_word max_words fuel (i + max_words) ((w :: ws).drop max_words)

/-- One iteration of the `for segment in segments` loop of
`generate_subtitles` (subtitles.py lines 92-120): with a non-empty word list,
delegate to `split_into_chunks`; otherwise strip the segment text and either
window it proportionally (when it has more than `max_words` words) or emit the
segment as a single chunk.  Python's `range` raises `ValueError` for step `0`
and produces nothing for a negative step; the `max_words ≤ 0` cases of the
windowing loop are modelled as `[]` and no theorem relies on them. -/
def process_segment (max_words : ℤ) (seg : Segment) : List Chunk :=
  if seg.words ≠ [] then
    split_into_chunks seg.words max_words
  else
    let text := py_strip seg.text
    if ((py_split text).length : ℤ) > max_words then
      let ws := py_split text
      let time_per_word := (seg.end_ - seg.start) / (ws.length : ℚ)
      if 1 ≤ max_words then
        fallback_go seg.start time_per_word max_words.toNat ws.length 0 ws
      else []
    else [⟨seg.start, seg.end_, text⟩]

/-- The full segment loop of `generate_subtitles`: the per-segment chunk lists
are appended in segment order (`subtitle_chunks.extend(chunks)`). -/
def process_segments (max_words : ℤ) (segments : List Segment) : List Chunk :=
  (segments.map (process_segment max_words)).flatten

/-- The SRT writing loop `for i, chunk in enumerate(subtitle_chunks, start=1)`
(subtitles.py lines 124-131): each chunk is written with its 1-based index. -/
def srt_entries (chunks : List Chunk) : List (ℕ × Chunk) :=
  List.enumFrom 1 chunks

/-- Adjacent-word ordering: a word ends no later than the next starts. -/
def word_rel (a b : Word) : Prop := a.end_ ≤ b.start

/-- Adjacent-cue ordering: a cue ends no later than the next starts. -/
def chunk_rel (a b : Chunk) : Prop := a.end_ ≤ b.start

/-- Non-decreasing timestamps within one segment: the segment spans
non-negatively, every word starts no earlier than the segment, ends no later
than the segment, and spans non-negatively, and adjacent words do not
overlap out of order. -/
def SegmentWellFormed (seg : Segment) : Prop :=
  seg.start ≤ seg.end_ ∧
  (∀ w ∈ seg.words, seg.start ≤ w.start ∧ w.start ≤ w.end_ ∧ w.end_ ≤ seg.end_) ∧
  List.Chain' word_rel seg.words

/-- Non-decreasing timestamps across a segment list: every segment is
well-formed and adjacent segments do not overlap out of order. -/
def SegmentsMonotone (segs : List Segment) : Prop :=
  (∀ s ∈ segs, SegmentWellFormed s) ∧
  List.Chain' (fun a b : Segment => a.end_ ≤ b.start) segs

/-! ### subtitles.py: `format_timestamp` (lines 145-160) -/

/-- Python float floor division `a // b` (result is a float). -/
def py_floordiv (a b : ℚ) : ℚ := (⌊a / b⌋ : ℚ)

/-- Python float modulo `a % b = a - b * (a // b)`. -/
def py_mod (a b : ℚ) : ℚ := a - b * (⌊a / b⌋ : ℚ)

/-- Python `int()` on a float: truncation toward zero. -/
def py_int (a : ℚ) : ℤ := if 0 ≤ a then ⌊a⌋ else -⌊-a⌋

/-- Python `f"{n:0wd}"` zero padding (as produced for the non-negative field
values of `format_timestamp`). -/
def pad_int (width : ℕ) (n : ℤ) : String :=
  let s := toString n
  if s.length < width then String.mk (List.replicate (width - s.length) '0') ++ s else s

/-- subtitles.py `format_timestamp(seconds)`:
`hours = int(seconds // 3600)`, `minutes = int((seconds % 3600) // 60)`,
`secs = int(seconds % 60)`, `millis = int((seconds % 1) * 1000)`, rendered as
`HH:MM:SS,mmm` with widths 2, 2, 2 and 3. -/
def format_timestamp (seconds : ℚ) : String :=
  let hours := py_int (py_floordiv seconds 3600)
  let minutes := py_int (py_floordiv (py_mod seconds 3600) 60)
  let secs := py_int (py_mod seconds 60)
  let millis := py_int (py_mod seconds 1 * 1000)
  pad_int 2 hours ++ ":" ++ pad_int 2 minutes ++ ":" ++ pad_int 2 secs ++ "," ++ pad_int 3 millis

/-- The shape law of `format_timestamp` for a non-negative number of seconds
(C8): writing `t` for the whole seconds and `m` for the whole milliseconds,
the output is `HH:MM:SS,mmm` with zero-padded fields, the hours `t / 3600`
unbounded (no wrap at 24), minutes `t % 3600 / 60`, seconds `t % 60`, and the
milliseconds `m % 1000` obtained by truncating (flooring), not rounding, the
fractional second. -/
def TimestampLaw (s : ℚ) : Prop :=
  format_timestamp s =
    pad_int 2 ((⌊s⌋.toNat / 3600 : ℕ) : ℤ) ++ ":" ++
    pad_int 2 ((⌊s⌋.toNat % 3600 / 60 : ℕ) : ℤ) ++ ":" ++
    pad_int 2 ((⌊s⌋.toNat % 60 : ℕ) : ℤ) ++ "," ++
    pad_int 3 ((⌊(1000 : ℚ) * s⌋.toNat % 1000 : ℕ) : ℤ)

/-! ### Path helpers (pathlib `Path.stem`, `Path.with_suffix`, `dir / name`) -/

/-- `pathlib.Path.stem`: the final path component without its last suffix. -/
def path_stem (p : String) : String :=
  let name := (split_on_pred (fun c => c = '/') p.toList).getLastD []
  let parts := split_on_pred (fun c => c = '.') name
  if parts.length ≤ 1 then String.mk name
  else String.mk (List.intercalate ['.'] parts.dropLast)

/-- `pathlib.Path.with_suffix`: replace the last suffix of the final
component, keeping the directory part. -/
def with_suffix (p suffix : String) : String :=
  let parts := split_on_pred (fun c => c = '/') p.toList
  let name := parts.getLastD []
  let nparts := split_on_pred (fun c => c = '.') name
  let stem := if nparts.length ≤ 1 then name else List.intercalate ['.'] nparts.dropLast
  String.mk (List.intercalate ['/'] (parts.dropLast ++ [stem ++ suffix.toList]))

/-! ### converter.py: `convert_to_short` (lines 12-100)

The file system is the list of existing paths; ffprobe's answer is an
`Option ℚ` (`none` when probing the duration fails) and ffmpeg's success is a
`Bool`.  A stage result records the returned path, how many external processes
were invoked, and the file system afterwards. -/

/-- Result of one pipeline stage: the path it returns, the number of external
collaborator invocations it performed, and the updated file system. -/
structure StageResult where
  path : String
  external_calls : ℕ
  fs : List String
deriving DecidableEq

/-- converter.py lines 45-55: `start_time = max(0, total_duration - duration)`
when ffprobe reports a duration, and `start_time = 0` when probing fails. -/
def start_time_of (probe : Option ℚ) (duration : ℚ) : ℚ :=
  match probe with
  | some total_duration => max 0 (total_duration - duration)
  | none => 0

/-- converter.py `convert_to_short(input_video, output_dir, duration)`:
compute `output_dir / f"{input_video.stem}_short.mp4"`, return it untouched if
it already exists, otherwise run ffprobe (`probe`) and ffmpeg (`ffmpeg_ok`),
raising (`Except.error`) when ffmpeg fails. -/
def convert_to_short (fs : List String) (probe : Option ℚ) (ffmpeg_ok : Bool)
    (input_video output_dir : String) (duration : ℚ) : Except String StageResult :=
  let output_file := output_dir ++ "/" ++ path_stem input_video ++ "_short.mp4"
  if output_file ∈ fs then Except.ok ⟨output_file, 0, fs⟩
  else
    let _start_time := start_time_of probe duration
    if ffmpeg_ok then Except.ok ⟨output_file, 2, output_file :: fs⟩
    else Except.error "Failed to convert video"

/-! ### subtitles.py: `generate_subtitles` (lines 49-142) as a stage

The Whisper collaborator's answer is `none` when transcription raises (library
missing or transcription failure) and `some segments` otherwise; the cue
construction it performs on segments is `process_segments` above. -/

/-- subtitles.py `generate_subtitles(video_file, ...)`: the output path is
`video_file.with_suffix(".srt")`; if it exists it is returned with no Whisper
invocation, otherwise Whisper runs and the `.srt` file is written. -/
def generate_subtitles (fs : List String) (asr : Option (List Segment))
    (video_file : String) (max_words : ℤ) : Except String StageResult :=
  let output_file := with_suffix video_file ".srt"
  if output_file ∈ fs then Except.ok ⟨output_file, 0, fs⟩
  else
    match asr with
    | none => Except.error "Subtitle generation failed"
    | some segments =>
      let _chunks := process_segments max_words segments
      Except.ok ⟨output_file, 1, output_file :: fs⟩

/-! ### overlay.py: `burn_subtitles` (lines 12-78) -/

/-- overlay.py `burn_subtitles(video_file, srt_file, output_dir)`: the output
path is `output_dir / f"{video_file.stem}_subs.mp4"`; if it exists it is
returned with no ffmpeg invocation, otherwise ffmpeg runs and may fail. -/
def burn_subtitles (fs : List String) (ffmpeg_ok : Bool)
    (video_file srt_file output_dir : String) : Except String StageResult :=
  let output_file := output_dir ++ "/" ++ path_stem video_file ++ "_subs.mp4"
  let _ := srt_file
  if output_file ∈ fs then Except.ok ⟨output_file, 0, fs⟩
  else if ffmpeg_ok then Except.ok ⟨output_file, 1, output_file :: fs⟩
  else Except.error "Failed to burn subtitles"

/-! ### main.py: the per-item pipeline (lines 151-216)

Each input file comes with the behaviour of its external collaborators
(`ItemOracle`); the command-line options that steer the loop are a `Config`.
An item's chain raises (`Except.error`) out of whichever stage fails, carrying
the stage tag and the error detail, and the loop's `try/except` catches it,
logs it and continues with the next file. -/

/-- The stage at which a per-item error arose (the `raise` sites reached by
the `try` block of main.py lines 154-211). -/
inductive Stage
  | convert
  | subtitles
  | burn
  | cleanup
deriving DecidableEq

/-- Collaborator behaviour for one input file: ffprobe's duration answer and
ffmpeg's success for `convert_to_short`, Whisper's answer for
`generate_subtitles`, ffmpeg's success for `burn_subtitles`, whether
`Path.unlink` succeeds during cleanup, and the `Optional[str]` video id
returned by `upload_to_youtube` (which catches its own errors and returns
`None` instead of raising).  `fs` is the file system when the item starts. -/
structure ItemOracle where
  fs : List String
  probe : Option ℚ
  convert_ffmpeg_ok : Bool
  asr : Option (List Segment)
  burn_ffmpeg_ok : Bool
  unlink_ok : Bool
  upload_result : Option String
deriving DecidableEq

/-- The command-line options used by the per-item loop of `main`. -/
structure Config where
  output_dir : String
  no_subs : Bool
  keep_temp : Bool
  upload : Bool
  max_words : ℤ
  duration : ℚ
deriving DecidableEq

/-- main.py lines 186-210: when `--upload` is set, `upload_to_youtube` is
called and its `Optional[str]` result is logged (a `None` is an error log, not
an exception); otherwise no id is produced. -/
def upload_step (cfg : Config) (final_video : String) (it : ItemOracle) :
    Except (Stage × String) (String × Option String) :=
  if cfg.upload then Except.ok (final_video, it.upload_result)
  else Except.ok (final_video, none)

/-- The body of the `try` block of main.py lines 154-211 for one input file:
convert, then (unless `--no-subs`) generate subtitles, burn them, and (unless
`--keep-temp`) unlink the two intermediates — all inside the same `try`, so a
failure anywhere here (including a failing `unlink`) raises out of the chain —
then optionally upload.  `Except.ok` carries the final path and the upload
id. -/
def process_item (cfg : Config) (video_file : String) (it : ItemOracle) :
    Except (Stage × String) (String × Option String) :=
  match convert_to_short it.fs it.probe it.convert_ffmpeg_ok video_file cfg.output_dir
      cfg.duration with
  | Except.error e => Except.error (Stage.convert, e)
  | Except.ok r1 =>
    if cfg.no_subs then
      upload_step cfg r1.path it
    else
      match generate_subtitles r1.fs it.asr r1.path cfg.max_words with
      | Except.error e => Except.error (Stage.subtitles, e)
      | Except.ok r2 =>
        match burn_subtitles r2.fs it.burn_ffmpeg_ok r1.path r2.path cfg.output_dir with
        | Except.error e => Except.error (Stage.burn, e)
        | Except.ok r3 =>
          if cfg.keep_temp = false ∧ it.unlink_ok = false then
            Except.error (Stage.cleanup, "unlink failed")
          else upload_step cfg r3.path it

/-- The `for video_file in video_files` loop of main.py lines 151-216: the
`try/except` around each item's chain turns any per-item exception into a
logged outcome and `continue`s, so every file in the list is processed and
produces exactly one outcome. -/
def run_items (cfg : Config) : List (String × ItemOracle) →
    List (Except (Stage × String) (String × Option String))
  | [] => []
  | (video_file, it) :: rest => process_item cfg video_file it :: run_items cfg rest

/-! ### uploader.py: `upload_video` description handling (lines 137-145)

Python strings are modelled as `List Char` here because the platform limits
slice by character position. -/

/-- uploader.py lines 138-139: append `#Shorts` to the description when
neither `#Shorts` nor `#shorts` occurs in it (`"\n\n#Shorts"` after a
non-empty description, bare `"#Shorts"` otherwise). -/
def add_shorts_marker (description : List Char) : List Char :=
  if ("#Shorts".toList <:+: description) ∨ ("#shorts".toList <:+: description) then
    description
  else if description ≠ [] then description ++ "\n\n#Shorts".toList
  else "#Shorts".toList

/-- uploader.py line 145: the description stored in the upload request body is
`description[:5000]` of the marker-augmented description. -/
def stored_description (description : List Char) : List Char :=
  (add_shorts_marker description).take 5000

/-! ## Helper lemmas -/

theorem replicate_no_marker {sub : List Char} {n : ℕ} (hc : ('#' : Char) ∈ sub) :
    ¬ (sub <:+: List.replicate n 'a') := by
  intro h
  have hmem : ('#' : Char) ∈ List.replicate n 'a' := h.sublist.subset hc
  exact absurd (List.eq_of_mem_replicate hmem) (by decide)

theorem split_go_eq_map (k : ℤ) :
    ∀ (ws acc : List Word), split_go k acc ws = (groups_go k acc ws).map chunkOf := by
  intro ws
  induction ws with
  | nil =>
    intro acc
    by_cases h : acc = [] <;> simp [split_go, groups_go, h]
  | cons w t ih =>
    intro acc
    simp only [split_go, groups_go]
    by_cases h : k ≤ (acc.length : ℤ) + 1 <;> simp [h, ih]

theorem groups_go_flatten (k : ℤ) :
    ∀ (ws acc : List Word), (groups_go k acc ws).flatten = acc ++ ws := by
  intro ws
  induction ws with
  | nil =>
    intro acc
    by_cases h : acc = [] <;> simp [groups_go, h]
  | cons w t ih =>
    intro acc
    simp only [groups_go]
    by_cases h : k ≤ (acc.length : ℤ) + 1 <;> simp [h, ih]

theorem groups_go_ne_nil (k : ℤ) :
    ∀ (ws acc : List Word), ∀ g ∈ groups_go k acc ws, g ≠ [] := by
  intro ws
  induction ws with
  | nil =>
    intro acc g hg
    by_cases h : acc = []
    · simp [groups_go, h] at hg
    · simp [groups_go, h] at hg
      simp [hg, h]
  | cons w t ih =>
    intro acc g hg
    simp only [groups_go] at hg
    by_cases h : ((acc ++ [w]).length : ℤ) ≥ k
    · rw [if_pos h] at hg
      rcases List.mem_cons.1 hg with rfl | hg'
      · simp
      · exact ih [] g hg'
    · rw [if_neg h] at hg
      exact ih (acc ++ [w]) g hg

theorem groups_go_cond (k : ℕ) (acc : List Word) (w : Word) :
    (((acc ++ [w]).length : ℤ) ≥ (k : ℤ)) ↔ k ≤ acc.length + 1 := by
  rw [List.length_append, List.length_singleton]
  constructor
  · intro h; exact_mod_cast h
  · intro h; exact_mod_cast h

theorem groups_go_mem_length (k : ℕ) (hk : 1 ≤ k) :
    ∀ (ws acc : List Word), acc.length < k →
      ∀ g ∈ groups_go (k : ℤ) acc ws, g.length ≤ k := by
  intro ws
  induction ws with
  | nil =>
    intro acc hlt g hg
    by_cases h : acc = []
    · simp [groups_go, h] at hg
    · simp [groups_go, h] at hg
      subst hg
      omega
  | cons w t ih =>
    intro acc hlt g hg
    simp only [groups_go] at hg
    by_cases h : ((acc ++ [w]).length : ℤ) ≥ (k : ℤ)
    · rw [if_pos h] at hg
      rcases List.mem_cons.1 hg with rfl | hg'
      · rw [groups_go_cond] at h
        simp only [List.length_append, List.length_singleton]
        omega
      · exact ih [] (by simpa using hk) g hg'
    · rw [if_neg h] at hg
      rw [groups_go_cond] at h
      exact ih (acc ++ [w]) (by simp; omega) g hg

theorem groups_go_dropLast_length (k : ℕ) (hk : 1 ≤ k) :
    ∀ (ws acc : List Word), acc.length < k →
      ∀ g ∈ (groups_go (k : ℤ) acc ws).dropLast, g.length = k := by
  intro ws
  induction ws with
  | nil =>
    intro acc _ g hg
    by_cases h : acc = [] <;> simp [groups_go, h] at hg
  | cons w t ih =>
    intro acc hlt g hg
    simp only [groups_go] at hg
    by_cases h : ((acc ++ [w]).length : ℤ) ≥ (k : ℤ)
    · rw [if_pos h] at hg
      rw [groups_go_cond] at h
      rcases ht : groups_go (k : ℤ) ([] : List Word) t with _ | ⟨r, rs⟩
      · rw [ht] at hg
        simp at hg
      · rw [ht, List.dropLast_cons₂] at hg
        rcases List.mem_cons.1 hg with rfl | hg'
        · simp only [List.length_append, List.length_singleton]
          omega
        · rw [← ht] at hg'
          exact ih [] (by simpa using hk) g hg'
    · rw [if_neg h] at hg
      rw [groups_go_cond] at h
      exact ih (acc ++ [w]) (by simp; omega) g hg

theorem groups_go_count (k : ℕ) (hk : 1 ≤ k) :
    ∀ (ws acc : List Word), acc.length < k → acc ++ ws ≠ [] →
      (groups_go (k : ℤ) acc ws).length = (acc.length + ws.length - 1) / k + 1 := by
  intro ws
  induction ws with
  | nil =>
    intro acc hlt hne
    have hacc : acc ≠ [] := by simpa using hne
    rw [groups_go, if_neg hacc]
    have h0 : (acc.length - 1) / k = 0 := Nat.div_eq_of_lt (by omega)
    simp [h0]
  | cons w t ih =>
    intro acc hlt _
    simp only [groups_go]
    by_cases h : ((acc ++ [w]).length : ℤ) ≥ (k : ℤ)
    · rw [if_pos h]
      rw [groups_go_cond] at h
      have hak : acc.length + 1 = k := by omega
      rcases t with _ | ⟨u, us⟩
      · rw [groups_go]
        rw [if_pos rfl]
        have h0 : acc.length / k = 0 := Nat.div_eq_of_lt hlt
        simp [h0]
      · have hrec := ih [] (by simpa using hk) (by simp)
        simp only [List.length_nil, List.length_cons, Nat.zero_add] at hrec
        rw [List.length_cons, hrec]
        have h1 : acc.length + (us.length + 1 + 1) - 1 = us.length + 1 - 1 + k := by omega
        simp only [List.length_cons, h1]
        rw [Nat.add_div_right _ (by omega : 0 < k)]
    · rw [if_neg h]
      rw [groups_go_cond] at h
      have hrec := ih (acc ++ [w]) (by simp; omega) (by simp)
      rw [hrec]
      have h1 : (acc ++ [w]).length + t.length - 1 = acc.length + (t.length + 1) - 1 := by
        simp only [List.length_append, List.length_singleton]
        omega
      rw [h1, List.length_cons]

theorem groups_of_count (k : ℕ) (hk : 1 ≤ k) (words : List Word) :
    (groups_of (k : ℤ) words).length = (words.length + k - 1) / k := by
  rcases words with _ | ⟨w, ws⟩
  · rw [groups_of, groups_go, if_pos rfl]
    have h0 : (k - 1) / k = 0 := Nat.div_eq_of_lt (by omega)
    simp [h0]
  · rw [groups_of, groups_go_count k hk (w :: ws) [] (by simpa using hk) (by simp)]
    simp only [List.length_nil, List.length_cons, Nat.zero_add]
    have h1 : ws.length + 1 + k - 1 = ws.length + 1 - 1 + k := by omega
    rw [h1, Nat.add_div_right _ (by omega : 0 < k)]

theorem mem_intercalate_char {c : Char} {sep : List Char} :
    ∀ (xs : List (List Char)), c ∈ List.intercalate sep xs → c ∈ sep ∨ ∃ l ∈ xs, c ∈ l
  | [] => by simp [List.intercalate]
  | [x] => by
    intro h
    right
    exact ⟨x, by simp, by simpa [List.intercalate] using h⟩
  | x :: y :: t => by
    intro h
    rw [List.intercalate, List.intersperse_cons₂, List.flatten_cons, List.flatten_cons] at h
    rcases List.mem_append.1 h with h1 | h2
    · exact Or.inr ⟨x, by simp, h1⟩
    rcases List.mem_append.1 h2 with h3 | h4
    · exact Or.inl h3
    rcases mem_intercalate_char (y :: t) (by rw [List.intercalate]; exact h4) with h5 | ⟨l, hl, hcl⟩
    · exact Or.inl h5
    · exact Or.inr ⟨l, List.mem_cons_of_mem x hl, hcl⟩

theorem py_strip_all_whitespace {l : List Char} (h : ∀ c ∈ l, c.isWhitespace) :
    py_strip (String.mk l) = "" := by
  unfold py_strip
  have h1 : (String.mk l).toList = l := rfl
  rw [h1, List.dropWhile_eq_nil_iff.2 h]
  rfl

theorem py_join_space_of_empties {parts : List String} (h : ∀ p ∈ parts, p = "") :
    py_strip (py_join " " parts) = "" := by
  unfold py_join
  apply py_strip_all_whitespace
  intro c hc
  rcases mem_intercalate_char _ hc with hsep | ⟨l, hl, hcl⟩
  · have hc' : c = ' ' := by
      have hs : " ".toList = [' '] := rfl
      rw [hs] at hsep
      simpa using hsep
    rw [hc']
    decide
  · rcases List.mem_map.1 hl with ⟨p, hp, rfl⟩
    rw [h p hp] at hcl
    simp at hcl

theorem chunkOf_text_whitespace {g : List Word} (hne : g ≠ [])
    (h : ∀ w ∈ g, py_strip w.word = "") : py_strip (chunkOf g).text = "" := by
  rcases g with _ | ⟨w, ws⟩
  · exact absurd rfl hne
  · show py_strip (py_join " " ((w :: ws).map fun x => py_strip x.word)) = ""
    apply py_join_space_of_empties
    intro p hp
    rcases List.mem_map.1 hp with ⟨x, hx, rfl⟩
    exact h x hx

/-! ## C7: extraction window clamp and degrade-not-fail duration probing -/

/-- C7: for every probed total duration, the reframe start time is
`max(0, totalDuration - windowDuration)`; it is never negative;
`totalDuration = 20, windowDuration = 30` yields `0`; when duration probing
fails the start time is `0`, and `convert_to_short` still succeeds (the full
file is processed) rather than failing. -/
theorem extraction_window_clamp :
    (∀ total_duration duration : ℚ,
      start_time_of (some total_duration) duration = max 0 (total_duration - duration)) ∧
    (∀ probe duration, 0 ≤ start_time_of probe duration) ∧
    start_time_of (some 20) 30 = 0 ∧
    (∀ duration, start_time_of none duration = 0) ∧
    (∀ fs input_video output_dir duration, ∃ r,
      convert_to_short fs none true input_video output_dir duration = Except.ok r) := by
  refine ⟨fun _ _ => rfl, ?_, ?_, fun _ => rfl, ?_⟩
  · intro probe duration
    cases probe with
    | none => exact le_refl 0
    | some t => exact le_max_left 0 (t - duration)
  · show max 0 (20 - 30 : ℚ) = 0
    rw [max_eq_left (by norm_num)]
  · intro fs input_video output_dir duration
    by_cases h : (output_dir ++ "/" ++ path_stem input_video ++ "_short.mp4") ∈ fs
    · exact ⟨⟨output_dir ++ "/" ++ path_stem input_video ++ "_short.mp4", 0, fs⟩,
        by simp [convert_to_short, h]⟩
    · exact ⟨⟨output_dir ++ "/" ++ path_stem input_video ++ "_short.mp4", 2,
        (output_dir ++ "/" ++ path_stem input_video ++ "_short.mp4") :: fs⟩,
        by simp [convert_to_short, h]⟩

/-! ## C10: `#Shorts` marker is appended before the 5000-character truncation -/

/-- C10: the stored description is the first 5000 characters of the
marker-augmented description; on a 5000-character description without the
marker, the marker is appended past position 5000, so the description
actually uploaded does not contain `#Shorts` at all. -/
theorem shorts_marker_truncated_away :
    (∀ d, stored_description d = (add_shorts_marker d).take 5000) ∧
    add_shorts_marker (List.replicate 5000 'a') =
      List.replicate 5000 'a' ++ "\n\n#Shorts".toList ∧
    5000 < (add_shorts_marker (List.replicate 5000 'a')).length ∧
    stored_description (List.replicate 5000 'a') = List.replicate 5000 'a' ∧
    ¬ ("#Shorts".toList <:+: stored_description (List.replicate 5000 'a')) := by
  have hrep : (List.replicate 5000 'a').length = 5000 := List.length_replicate 5000 'a'
  have hmarker : add_shorts_marker (List.replicate 5000 'a') =
      List.replicate 5000 'a' ++ "\n\n#Shorts".toList := by
    unfold add_shorts_marker
    rw [if_neg, if_pos]
    · intro h
      have := congrArg List.length h
      rw [hrep] at this
      simp at this
    · rintro (h | h)
      · exact replicate_no_marker (by decide) h
      · exact replicate_no_marker (by decide) h
  have hstored : stored_description (List.replicate 5000 'a') = List.replicate 5000 'a' := by
    unfold stored_description
    rw [hmarker, List.take_left' hrep]
  refine ⟨fun d => rfl, hmarker, ?_, hstored, ?_⟩
  · rw [hmarker, List.length_append, hrep]
    have h9 : ("\n\n#Shorts".toList).length = 9 := by decide
    omega
  · rw [hstored]; exact replicate_no_marker (by decide)

/-! ## C2: `maxWords < 1` is not validated anywhere -/

/-- C2 counterexample: with `maxWords = 0` (and `-3`), a contract violation
per the claim, `split_into_chunks` raises nothing and silently produces one
cue per word — the source contains no `maxWords < 1` validation at all, in
`split_into_chunks` or before the item loop of `main`. -/
theorem invalid_max_words_counterexample :
    split_into_chunks [⟨0, 1, "hi"⟩] 0 = [⟨0, 1, "hi"⟩] ∧
    split_into_chunks [⟨0, 1, "hi"⟩] (-3) = [⟨0, 1, "hi"⟩] := by
  constructor <;> rfl

/-- C2 amended: for `maxWords < 1` the segmentation does not fail and no
`InvalidArgument` is reported; `len(current_chunk) >= max_words` holds as soon
as one word is accumulated, so the word-list path silently produces one
single-word cue per word. -/
theorem invalid_max_words_amended (words : List Word) (max_words : ℤ)
    (h : max_words < 1) :
    split_into_chunks words max_words = words.map (fun w => chunkOf [w]) := by
  unfold split_into_chunks
  induction words with
  | nil => rfl
  | cons w ws ih =>
    rw [split_go]
    have hc : (((([] : List Word) ++ [w]).length : ℕ) : ℤ) ≥ max_words := by
      simp; omega
    rw [if_pos hc]
    simp only [List.nil_append, List.map_cons, ih]

/-- Witness for the amended C2 at `maxWords = 0` on a two-word list. -/
theorem invalid_max_words_amended_witness :
    (0 : ℤ) < 1 ∧
      split_into_chunks [⟨0, 1, "hi"⟩, ⟨1, 2, "yo"⟩] 0 =
        ([⟨0, 1, "hi"⟩, ⟨1, 2, "yo"⟩] : List Word).map (fun w => chunkOf [w]) :=
  ⟨by decide, invalid_max_words_amended _ 0 (by decide)⟩

/-! ## C4: every stage is idempotent-by-presence -/

/-- C4: for each of the three processing stages, if the stage's deterministic
output path already exists in the file system then the stage returns that path
with zero external invocations and an unchanged file system; consequently a
second invocation after any successful run returns the same path with no
external call. -/
theorem stage_idempotency :
    (∀ fs probe ok input_video output_dir duration,
      (output_dir ++ "/" ++ path_stem input_video ++ "_short.mp4") ∈ fs →
        convert_to_short fs probe ok input_video output_dir duration =
          Except.ok ⟨output_dir ++ "/" ++ path_stem input_video ++ "_short.mp4", 0, fs⟩) ∧
    (∀ fs probe ok input_video output_dir duration r,
      convert_to_short fs probe ok input_video output_dir duration = Except.ok r →
        convert_to_short r.fs probe ok input_video output_dir duration =
          Except.ok ⟨r.path, 0, r.fs⟩) ∧
    (∀ fs asr video_file max_words,
      with_suffix video_file ".srt" ∈ fs →
        generate_subtitles fs asr video_file max_words =
          Except.ok ⟨with_suffix video_file ".srt", 0, fs⟩) ∧
    (∀ fs asr video_file max_words r,
      generate_subtitles fs asr video_file max_words = Except.ok r →
        generate_subtitles r.fs asr video_file max_words = Except.ok ⟨r.path, 0, r.fs⟩) ∧
    (∀ fs ok video_file srt_file output_dir,
      (output_dir ++ "/" ++ path_stem video_file ++ "_subs.mp4") ∈ fs →
        burn_subtitles fs ok video_file srt_file output_dir =
          Except.ok ⟨output_dir ++ "/" ++ path_stem video_file ++ "_subs.mp4", 0, fs⟩) ∧
    (∀ fs ok video_file srt_file output_dir r,
      burn_subtitles fs ok video_file srt_file output_dir = Except.ok r →
        burn_subtitles r.fs ok video_file srt_file output_dir =
          Except.ok ⟨r.path, 0, r.fs⟩) := by
  refine ⟨?_, ?_, ?_, ?_, ?_, ?_⟩
  · intro fs probe ok input_video output_dir duration h
    simp [convert_to_short, h]
  · intro fs probe ok input_video output_dir duration r h
    unfold convert_to_short at h ⊢
    by_cases hm : (output_dir ++ "/" ++ path_stem input_video ++ "_short.mp4") ∈ fs
    · rw [if_pos hm] at h
      cases h
      simp [hm]
    · rw [if_neg hm] at h
      cases ok with
      | false => simp at h
      | true =>
        simp only [if_true] at h
        cases h
        simp
  · intro fs asr video_file max_words h
    simp [generate_subtitles, h]
  · intro fs asr video_file max_words r h
    unfold generate_subtitles at h ⊢
    by_cases hm : with_suffix video_file ".srt" ∈ fs
    · rw [if_pos hm] at h
      cases h
      simp [hm]
    · rw [if_neg hm] at h
      cases asr with
      | none => simp at h
      | some segments =>
        simp only at h
        cases h
        simp
  · intro fs ok video_file srt_file output_dir h
    simp [burn_subtitles, h]
  · intro fs ok video_file srt_file output_dir r h
    unfold burn_subtitles at h ⊢
    by_cases hm : (output_dir ++ "/" ++ path_stem video_file ++ "_subs.mp4") ∈ fs
    · rw [if_pos hm] at h
      cases h
      simp [hm]
    · rw [if_neg hm] at h
      cases ok with
      | false => simp at h
      | true =>
        simp only [if_true] at h
        cases h
        simp

/-- Witness for C4 at concrete paths: each stage's output path is present, so
the stage returns it with zero external calls, and a successful first run is
followed by a call-free second run. -/
theorem stage_idempotency_witness :
    ("out/v_short.mp4" ∈ ["out/v_short.mp4"] ∧
      convert_to_short ["out/v_short.mp4"] (some 100) true "d/v.mp4" "out" 30 =
        Except.ok ⟨"out/v_short.mp4", 0, ["out/v_short.mp4"]⟩) ∧
    (convert_to_short [] (some 100) true "d/v.mp4" "out" 30 =
        Except.ok ⟨"out/v_short.mp4", 2, ["out/v_short.mp4"]⟩ ∧
      convert_to_short ["out/v_short.mp4"] (some 100) true "d/v.mp4" "out" 30 =
        Except.ok ⟨"out/v_short.mp4", 0, ["out/v_short.mp4"]⟩) ∧
    (generate_subtitles [] (some []) "out/v_short.mp4" 5 =
        Except.ok ⟨"out/v_short.srt", 1, ["out/v_short.srt"]⟩ ∧
      generate_subtitles ["out/v_short.srt"] (some []) "out/v_short.mp4" 5 =
        Except.ok ⟨"out/v_short.srt", 0, ["out/v_short.srt"]⟩) ∧
    (burn_subtitles [] true "out/v_short.mp4" "out/v_short.srt" "out" =
        Except.ok ⟨"out/v_short_subs.mp4", 1, ["out/v_short_subs.mp4"]⟩ ∧
      burn_subtitles ["out/v_short_subs.mp4"] true "out/v_short.mp4" "out/v_short.srt" "out" =
        Except.ok ⟨"out/v_short_subs.mp4", 0, ["out/v_short_subs.mp4"]⟩) := by
  have hpath : path_stem "d/v.mp4" = "v" := rfl
  refine ⟨⟨List.mem_singleton.2 rfl, ?_⟩, ⟨rfl, ?_⟩, ⟨rfl, ?_⟩, ⟨rfl, ?_⟩⟩
  · exact stage_idempotency.1 ["out/v_short.mp4"] (some 100) true "d/v.mp4" "out" 30
      (by rw [hpath]; exact List.mem_singleton.2 rfl)
  · exact stage_idempotency.2.1 [] (some 100) true "d/v.mp4" "out" 30
      ⟨"out/v_short.mp4", 2, ["out/v_short.mp4"]⟩ rfl
  · exact stage_idempotency.2.2.2.1 [] (some []) "out/v_short.mp4" 5
      ⟨"out/v_short.srt", 1, ["out/v_short.srt"]⟩ rfl
  · exact stage_idempotency.2.2.2.2.2 [] true "out/v_short.mp4" "out/v_short.srt" "out"
      ⟨"out/v_short_subs.mp4", 1, ["out/v_short_subs.mp4"]⟩ rfl

/-! ## C5: per-item failures are isolated -/

/-- C5: the item loop produces exactly one outcome per input file, outcomes
are computed item-by-item (so one item's failure cannot affect any other
item), the loop processes concatenations piecewise (every subsequent item is
still attempted after a failure), and a failing stage's error is reported as
that item's own outcome, tagged with the stage and its error detail. -/
theorem failure_isolation :
    (∀ cfg items, run_items cfg items =
      items.map (fun p => process_item cfg p.1 p.2)) ∧
    (∀ cfg items₁ items₂, run_items cfg (items₁ ++ items₂) =
      run_items cfg items₁ ++ run_items cfg items₂) ∧
    (∀ cfg items, (run_items cfg items).length = items.length) ∧
    (∀ cfg video_file it e,
      convert_to_short it.fs it.probe it.convert_ffmpeg_ok video_file cfg.output_dir
          cfg.duration = Except.error e →
        process_item cfg video_file it = Except.error (Stage.convert, e)) ∧
    (∀ cfg video_file it r1 e, cfg.no_subs = false →
      convert_to_short it.fs it.probe it.convert_ffmpeg_ok video_file cfg.output_dir
          cfg.duration = Except.ok r1 →
      generate_subtitles r1.fs it.asr r1.path cfg.max_words = Except.error e →
        process_item cfg video_file it = Except.error (Stage.subtitles, e)) := by
  have hmap : ∀ cfg items, run_items cfg items =
      items.map (fun p => process_item cfg p.1 p.2) := by
    intro cfg items
    induction items with
    | nil => rfl
    | cons p rest ih => cases p; rw [run_items, ih]; rfl
  refine ⟨hmap, ?_, ?_, ?_, ?_⟩
  · intro cfg items₁ items₂
    rw [hmap, hmap, hmap, List.map_append]
  · intro cfg items
    rw [hmap, List.length_map]
  · intro cfg video_file it e h
    unfold process_item
    rw [h]
  · intro cfg video_file it r1 e hns h1 h2
    unfold process_item
    rw [h1, hns]
    simp only [Bool.false_eq_true, if_false, h2]

/-- Witness for C5: a first item whose ffmpeg conversion fails yields a
convert-stage failure outcome, and a second item whose transcription fails
yields a subtitles-stage failure outcome. -/
theorem failure_isolation_witness :
    (convert_to_short [] (some 100) false "a.mp4" "out" 30 =
        Except.error "Failed to convert video" ∧
      process_item ⟨"out", false, true, false, 5, 30⟩ "a.mp4"
          ⟨[], some 100, false, some [], true, true, none⟩ =
        Except.error (Stage.convert, "Failed to convert video")) ∧
    ((⟨"out", false, true, false, 5, 30⟩ : Config).no_subs = false ∧
      convert_to_short [] (some 100) true "b.mp4" "out" 30 =
        Except.ok ⟨"out/b_short.mp4", 2, ["out/b_short.mp4"]⟩ ∧
      generate_subtitles ["out/b_short.mp4"] none "out/b_short.mp4" 5 =
        Except.error "Subtitle generation failed" ∧
      process_item ⟨"out", false, true, false, 5, 30⟩ "b.mp4"
          ⟨[], some 100, true, none, true, true, none⟩ =
        Except.error (Stage.subtitles, "Subtitle generation failed")) := by
  refine ⟨⟨rfl, ?_⟩, rfl, rfl, rfl, ?_⟩
  · exact failure_isolation.2.2.2.1 ⟨"out", false, true, false, 5, 30⟩ "a.mp4"
      ⟨[], some 100, false, some [], true, true, none⟩ "Failed to convert video" rfl
  · exact failure_isolation.2.2.2.2 ⟨"out", false, true, false, 5, 30⟩ "b.mp4"
      ⟨[], some 100, true, none, true, true, none⟩
      ⟨"out/b_short.mp4", 2, ["out/b_short.mp4"]⟩ "Subtitle generation failed" rfl rfl rfl

/-! ## C6: a cleanup (unlink) failure is escalated, not merely logged -/

/-- C6 counterexample: a successful chain followed by a failing `unlink`
(keep-intermediates off, upload requested, the upload collaborator ready to
return an id) makes the item's outcome a cleanup-stage failure — the `unlink`
calls sit inside the per-item `try`, so the deletion failure is not merely
logged: it becomes the item's failure and the upload step is never reached. -/
theorem cleanup_failure_counterexample :
    process_item ⟨"out", false, false, true, 5, 30⟩ "in.mp4"
        ⟨[], some 100, true, some [], true, false, some "vid"⟩ =
      Except.error (Stage.cleanup, "unlink failed") := rfl

/-- C6 amended: when the full chain succeeds, keep-intermediates is off and an
`unlink` fails, the failure is caught by the per-item handler like any stage
failure: the item's outcome becomes a cleanup-tagged Failure and the remaining
steps (publishing) are skipped, though subsequent items are still processed. -/
theorem cleanup_failure_amended (cfg : Config) (video_file : String) (it : ItemOracle)
    (r1 r2 r3 : StageResult)
    (hns : cfg.no_subs = false) (hkt : cfg.keep_temp = false) (hul : it.unlink_ok = false)
    (h1 : convert_to_short it.fs it.probe it.convert_ffmpeg_ok video_file cfg.output_dir
        cfg.duration = Except.ok r1)
    (h2 : generate_subtitles r1.fs it.asr r1.path cfg.max_words = Except.ok r2)
    (h3 : burn_subtitles r2.fs it.burn_ffmpeg_ok r1.path r2.path cfg.output_dir =
        Except.ok r3) :
    process_item cfg video_file it = Except.error (Stage.cleanup, "unlink failed") ∧
    ∀ rest, run_items cfg ((video_file, it) :: rest) =
      Except.error (Stage.cleanup, "unlink failed") :: run_items cfg rest := by
  have hout : process_item cfg video_file it =
      Except.error (Stage.cleanup, "unlink failed") := by
    unfold process_item
    rw [h1, hns]
    simp only [Bool.false_eq_true, if_false, h2, h3]
    rw [if_pos ⟨hkt, hul⟩]
  exact ⟨hout, fun rest => by rw [run_items, hout]⟩

/-- Witness for the amended C6 at a concrete ok-ok-ok-then-failing-unlink
run. -/
theorem cleanup_failure_amended_witness :
    ((⟨"out", false, false, true, 5, 30⟩ : Config).no_subs = false ∧
      (⟨"out", false, false, true, 5, 30⟩ : Config).keep_temp = false ∧
      (⟨[], some 100, true, some [], true, false, some "vid"⟩ : ItemOracle).unlink_ok = false ∧
      convert_to_short [] (some 100) true "in.mp4" "out" 30 =
        Except.ok ⟨"out/in_short.mp4", 2, ["out/in_short.mp4"]⟩ ∧
      generate_subtitles ["out/in_short.mp4"] (some []) "out/in_short.mp4" 5 =
        Except.ok ⟨"out/in_short.srt", 1, ["out/in_short.srt", "out/in_short.mp4"]⟩ ∧
      burn_subtitles ["out/in_short.srt", "out/in_short.mp4"] true "out/in_short.mp4"
          "out/in_short.srt" "out" =
        Except.ok ⟨"out/in_short_subs.mp4", 1,
          ["out/in_short_subs.mp4", "out/in_short.srt", "out/in_short.mp4"]⟩) ∧
    process_item ⟨"out", false, false, true, 5, 30⟩ "in.mp4"
        ⟨[], some 100, true, some [], true, false, some "vid"⟩ =
      Except.error (Stage.cleanup, "unlink failed") ∧
    ∀ rest, run_items ⟨"out", false, false, true, 5, 30⟩ (("in.mp4",
        ⟨[], some 100, true, some [], true, false, some "vid"⟩) :: rest) =
      Except.error (Stage.cleanup, "unlink failed") ::
        run_items ⟨"out", false, false, true, 5, 30⟩ rest :=
  ⟨⟨rfl, rfl, rfl, rfl, rfl, rfl⟩,
    cleanup_failure_amended ⟨"out", false, false, true, 5, 30⟩ "in.mp4"
      ⟨[], some 100, true, some [], true, false, some "vid"⟩
      ⟨"out/in_short.mp4", 2, ["out/in_short.mp4"]⟩
      ⟨"out/in_short.srt", 1, ["out/in_short.srt", "out/in_short.mp4"]⟩
      ⟨"out/in_short_subs.mp4", 1,
        ["out/in_short_subs.mp4", "out/in_short.srt", "out/in_short.mp4"]⟩
      rfl rfl rfl rfl rfl rfl⟩

/-! ## C3: the chunk-count law of the word-list path -/

/-- C3: for a word list of length `N` and `maxWords = k ≥ 1`,
`split_into_chunks` produces exactly `⌈N/k⌉` cues as the `chunkOf` images of
the consecutive word groups — all groups but possibly the last of size exactly
`k`, none larger, each cue built from its group's first word's start, last
word's end, and the stripped word texts joined by single spaces. -/
theorem chunk_count_law (words : List Word) (k : ℕ) (hk : 1 ≤ k) : ChunkLaw words k := by
  refine ⟨split_go_eq_map (k : ℤ) words [], groups_go_flatten (k : ℤ) words [],
    groups_of_count k hk words, ?_, ?_, ?_⟩
  · intro g hg
    exact ⟨groups_go_ne_nil (k : ℤ) words [] g hg,
      groups_go_mem_length k hk words [] (by simpa using hk) g hg⟩
  · exact groups_go_dropLast_length k hk words [] (by simpa using hk)
  · intro w ws _
    rfl

/-- Witness for C3 on a three-word list with `maxWords = 2`. -/
theorem chunk_count_law_witness :
    1 ≤ 2 ∧ ChunkLaw [⟨0, 1, "a"⟩, ⟨1, 2, " b "⟩, ⟨2, 3, "c"⟩] 2 :=
  ⟨by decide, chunk_count_law [⟨0, 1, "a"⟩, ⟨1, 2, " b "⟩, ⟨2, 3, "c"⟩] 2 (by decide)⟩

/-! ## C1: whitespace-only segments are not dropped -/

/-- C1 counterexample: a segment whose text is a single space and which has no
word list yields one cue with empty text on the fallback path (not zero cues),
and a word whose text strips to empty yields a cue with empty text on the
word-list path — cues with empty (after trimming) text are emitted. -/
theorem whitespace_segment_counterexample :
    process_segments 5 [⟨0, 1, " ", []⟩] = [⟨0, 1, ""⟩] ∧
    process_segments 5 [⟨0, 1, "x", [⟨0, 1, " "⟩]⟩] = [⟨0, 1, ""⟩] := by
  constructor <;> rfl

/-- C1 amended: a whitespace-only segment is not dropped.  On the fallback
path (no word list, any `maxWords ≥ 0`) it contributes exactly one cue
spanning the segment with empty text; on the word-list path a segment whose
words all strip to empty still contributes at least one cue, every one of its
cues carrying text that strips to empty. -/
theorem whitespace_segment_amended :
    (∀ (seg : Segment) (max_words : ℤ), seg.words = [] → py_strip seg.text = "" →
      0 ≤ max_words → process_segment max_words seg = [⟨seg.start, seg.end_, ""⟩]) ∧
    (∀ (seg : Segment) (max_words : ℤ), seg.words ≠ [] →
      (∀ w ∈ seg.words, py_strip w.word = "") →
      process_segment max_words seg ≠ [] ∧
      ∀ c ∈ process_segment max_words seg, py_strip c.text = "") := by
  constructor
  · intro seg mw hw ht hk
    unfold process_segment
    rw [if_neg (by rw [hw]; exact fun hcon => hcon rfl)]
    simp only [ht]
    have hsplit : py_split "" = [] := rfl
    rw [hsplit]
    rw [if_neg (by simp; omega)]
  · intro seg mw hw hws
    have hsplit : process_segment mw seg = split_into_chunks seg.words mw := by
      unfold process_segment
      rw [if_pos hw]
    have hmapform : split_into_chunks seg.words mw =
        (groups_go mw [] seg.words).map chunkOf := split_go_eq_map mw seg.words []
    constructor
    · rw [hsplit, hmapform]
      intro hmap
      have hg : groups_go mw [] seg.words = [] := List.map_eq_nil_iff.1 hmap
      have hflat := groups_go_flatten mw seg.words []
      rw [hg] at hflat
      simp at hflat
      exact hw hflat
    · intro c hc
      rw [hsplit, hmapform] at hc
      rcases List.mem_map.1 hc with ⟨g, hg, rfl⟩
      apply chunkOf_text_whitespace (groups_go_ne_nil mw seg.words [] g hg)
      intro w hwg
      apply hws
      have hmem : w ∈ (groups_go mw [] seg.words).flatten :=
        List.mem_flatten.2 ⟨g, hg, hwg⟩
      rw [groups_go_flatten mw seg.words []] at hmem
      simpa using hmem

/-- Witness for the amended C1: a whitespace-only fallback segment yields one
empty-text cue, and a word-list segment whose single word is a space yields a
non-empty cue list whose cues all strip to empty text. -/
theorem whitespace_segment_amended_witness :
    ((⟨2, 3, " ", []⟩ : Segment).words = [] ∧
      py_strip (⟨2, 3, " ", []⟩ : Segment).text = "" ∧ (0 : ℤ) ≤ 7 ∧
      process_segment 7 ⟨2, 3, " ", []⟩ = [⟨2, 3, ""⟩]) ∧
    ((⟨0, 1, "x", [⟨0, 1, " "⟩]⟩ : Segment).words ≠ [] ∧
      (∀ w ∈ (⟨0, 1, "x", [⟨0, 1, " "⟩]⟩ : Segment).words, py_strip w.word = "") ∧
      (process_segment 1 ⟨0, 1, "x", [⟨0, 1, " "⟩]⟩ ≠ [] ∧
        ∀ c ∈ process_segment 1 ⟨0, 1, "x", [⟨0, 1, " "⟩]⟩, py_strip c.text = "")) :=
  ⟨⟨rfl, rfl, by decide,
      whitespace_segment_amended.1 ⟨2, 3, " ", []⟩ 7 rfl rfl (by decide)⟩,
    ⟨by decide, by decide,
      whitespace_segment_amended.2 ⟨0, 1, "x", [⟨0, 1, " "⟩]⟩ 1 (by decide) (by decide)⟩⟩

/-! ## C9 helper lemmas: cue numbering and monotonicity -/

theorem enumFrom_map_fst {α : Type} :
    ∀ (l : List α) (n : ℕ), (List.enumFrom n l).map Prod.fst = List.range' n l.length
  | [], _ => rfl
  | a :: t, n => by
    rw [List.enumFrom, List.map_cons, List.length_cons, List.range'_succ]
    exact congrArg (n :: ·) (enumFrom_map_fst t (n + 1))

theorem getLast?_cons_getLastD {α : Type} (w : α) :
    ∀ ws : List α, (w :: ws).getLast? = some (ws.getLastD w)
  | [] => rfl
  | w' :: t => by
    rw [List.getLast?_cons_cons, List.getLastD_cons]
    exact getLast?_cons_getLastD w' t

theorem add_mul_le_add_mul {s t a b : ℚ} (hab : a ≤ b) (ht : 0 ≤ t) :
    s + a * t ≤ s + b * t := by
  have := mul_le_mul_of_nonneg_right hab ht
  linarith

theorem head_start_le_getLastD_end :
    ∀ (ws : List Word) (w : Word), (∀ x ∈ w :: ws, x.start ≤ x.end_) →
      List.Chain' word_rel (w :: ws) → w.start ≤ (ws.getLastD w).end_
  | [], w, hse, _ => by simpa using hse w (by simp)
  | w' :: t, w, hse, hch => by
    have h1 : w.start ≤ w.end_ := hse w (by simp)
    have h2 : w.end_ ≤ w'.start := (List.chain'_cons.1 hch).1
    have h3 := head_start_le_getLastD_end t w'
      (fun x hx => hse x (List.mem_cons_of_mem _ hx)) (List.chain'_cons.1 hch).2
    rw [List.getLastD_cons]
    exact le_trans h1 (le_trans h2 h3)

theorem map_chunkOf_chain :
    ∀ (gs : List (List Word)), (∀ g ∈ gs, g ≠ []) →
      List.Chain' word_rel gs.flatten → List.Chain' chunk_rel (gs.map chunkOf)
  | [], _, _ => List.chain'_nil
  | [g], _, _ => by simp [List.chain'_singleton]
  | g :: g₂ :: t, hne, hch => by
    rcases hg : g with _ | ⟨w, ws⟩
    · exact absurd hg (hne g (by simp))
    rcases hg₂ : g₂ with _ | ⟨w₂, ws₂⟩
    · exact absurd hg₂ (hne g₂ (by simp))
    subst hg hg₂
    rw [List.flatten_cons] at hch
    obtain ⟨hchg, hchrest, hbound⟩ := List.chain'_append.1 hch
    rw [List.map_cons, List.map_cons, List.chain'_cons]
    constructor
    · show (ws.getLastD w).end_ ≤ w₂.start
      apply hbound
      · rw [getLast?_cons_getLastD]
        rfl
      · rw [List.flatten_cons, List.cons_append]
        rfl
    · rw [← List.map_cons]
      exact map_chunkOf_chain ((w₂ :: ws₂) :: t)
        (fun g' hg' => hne g' (List.mem_cons_of_mem _ hg')) hchrest

theorem split_chunks_sorted (k : ℤ) (seg : Segment) (hwf : SegmentWellFormed seg) :
    (∀ c ∈ split_into_chunks seg.words k,
        seg.start ≤ c.start ∧ c.start ≤ c.end_ ∧ c.end_ ≤ seg.end_) ∧
    List.Chain' chunk_rel (split_into_chunks seg.words k) := by
  obtain ⟨hspan, hbounds, hchain⟩ := hwf
  have hform : split_into_chunks seg.words k =
      (groups_go k [] seg.words).map chunkOf := split_go_eq_map k seg.words []
  have hflat : (groups_go k [] seg.words).flatten = seg.words := by
    rw [groups_go_flatten]
    rfl
  constructor
  · intro c hc
    rw [hform] at hc
    rcases List.mem_map.1 hc with ⟨g, hg, rfl⟩
    have hsub : ∀ x ∈ g, x ∈ seg.words := by
      intro x hx
      rw [← hflat]
      exact List.mem_flatten.2 ⟨g, hg, hx⟩
    rcases hgshape : g with _ | ⟨w, ws⟩
    · exact absurd hgshape (groups_go_ne_nil k seg.words [] g hg)
    subst hgshape
    have hlast_mem : ws.getLastD w ∈ w :: ws := List.getLastD_mem_cons ws w
    refine ⟨(hbounds w (hsub w (by simp))).1, ?_, (hbounds _ (hsub _ hlast_mem)).2.2⟩
    show w.start ≤ (ws.getLastD w).end_
    apply head_start_le_getLastD_end ws w
    · intro x hx
      exact (hbounds x (hsub x hx)).2.1
    · exact hchain.infix (by rw [← hflat]; exact List.infix_of_mem_flatten hg)
  · rw [hform]
    exact map_chunkOf_chain _ (groups_go_ne_nil k seg.words []) (by rwa [hflat])

theorem fallback_go_nil (s tpw : ℚ) (k : ℕ) :
    ∀ (fuel i : ℕ), fallback_go s tpw k fuel i [] = [] := by
  intro fuel i
  cases fuel <;> rfl

theorem fallback_go_sorted (s tpw : ℚ) (k : ℕ) (hk : 1 ≤ k) (htpw : 0 ≤ tpw) :
    ∀ (fuel : ℕ) (ws : List String) (i : ℕ), ws.length ≤ fuel →
      (∀ c ∈ fallback_go s tpw k fuel i ws,
        s + (i : ℚ) * tpw ≤ c.start ∧ c.start ≤ c.end_ ∧
          c.end_ ≤ s + ((i : ℚ) + (ws.length : ℚ)) * tpw) ∧
      List.Chain' chunk_rel (fallback_go s tpw k fuel i ws) := by
  intro fuel
  induction fuel with
  | zero =>
    intro ws i hf
    have hws : ws = [] := List.length_eq_zero.1 (Nat.le_zero.1 hf)
    subst hws
    exact ⟨by simp [fallback_go], by simp [fallback_go, List.chain'_nil]⟩
  | succ f ih =>
    intro ws i hf
    rcases ws with _ | ⟨w, t⟩
    · exact ⟨by simp [fallback_go], by simp [fallback_go, List.chain'_nil]⟩
    rw [fallback_go]
    have hmle : ((w :: t).take k).length ≤ (w :: t).length := by
      rw [List.length_take]
      omega
    have hdroplen : ((w :: t).drop k).length ≤ f := by
      rw [List.length_drop]
      simp only [List.length_cons] at hf ⊢
      omega
    have hrest := ih ((w :: t).drop k) (i + k) hdroplen
    constructor
    · intro c hc
      rcases List.mem_cons.1 hc with rfl | hc'
      · refine ⟨le_refl _, ?_, ?_⟩
        · exact add_mul_le_add_mul (le_add_of_nonneg_right (Nat.cast_nonneg _)) htpw
        · apply add_mul_le_add_mul _ htpw
          have : (((w :: t).take k).length : ℚ) ≤ ((w :: t).length : ℚ) := by
            exact_mod_cast hmle
          linarith
      · by_cases hkl : k ≤ (w :: t).length
        · obtain ⟨hlo, hmid, hhi⟩ := hrest.1 c hc'
          refine ⟨?_, hmid, ?_⟩
          · refine le_trans (add_mul_le_add_mul ?_ htpw) hlo
            push_cast
            linarith [Nat.cast_nonneg (α := ℚ) k]
          · refine le_trans hhi (add_mul_le_add_mul ?_ htpw)
            rw [List.length_drop]
            push_cast [Nat.cast_sub hkl]
            linarith
        · exfalso
          have hnil : (w :: t).drop k = [] := List.drop_eq_nil_iff.2 (by omega)
          rw [hnil, fallback_go_nil] at hc'
          exact absurd hc' (List.not_mem_nil c)
    · rcases hd : (w :: t).drop k with _ | ⟨d, ds⟩
      · rw [fallback_go_nil]
        exact List.chain'_singleton _
      · rw [hd] at hrest hdroplen
        rcases f with _ | f'
        · simp at hdroplen
        · rw [List.chain'_cons']
          refine ⟨?_, hrest.2⟩
          intro y hy
          have htake : ((w :: t).take k).length = k := by
            rw [List.length_take]
            have : k < (w :: t).length := by
              by_contra hcon
              rw [List.drop_eq_nil_iff.2 (by omega)] at hd
              exact absurd hd (by simp)
            omega
          have hhead : (fallback_go s tpw k (f' + 1) (i + k) (d :: ds)).head? =
              some ⟨s + ((i + k : ℕ) : ℚ) * tpw,
                s + (((i + k : ℕ) : ℚ) + (((d :: ds).take k).length : ℚ)) * tpw,
                py_join " " ((d :: ds).take k)⟩ := rfl
          rw [hhead] at hy
          have hyeq := Option.mem_some_iff.1 hy
          subst hyeq
          show s + ((i : ℚ) + (((w :: t).take k).length : ℚ)) * tpw ≤
            s + ((i + k : ℕ) : ℚ) * tpw
          rw [htake]
          push_cast
          exact le_refl _

theorem process_segment_sorted (k : ℤ) (hk : 1 ≤ k) (seg : Segment)
    (hwf : SegmentWellFormed seg) :
    (∀ c ∈ process_segment k seg,
        seg.start ≤ c.start ∧ c.start ≤ c.end_ ∧ c.end_ ≤ seg.end_) ∧
    List.Chain' chunk_rel (process_segment k seg) := by
  by_cases hw : seg.words = []
  · unfold process_segment
    rw [if_neg (fun h => h hw)]
    by_cases hlen : (((py_split (py_strip seg.text)).length : ℕ) : ℤ) > k
    · rw [if_pos hlen, if_pos hk]
      have hn : 0 < (py_split (py_strip seg.text)).length := by omega
      have hnq : ((py_split (py_strip seg.text)).length : ℚ) ≠ 0 := by
        exact_mod_cast Nat.pos_iff_ne_zero.1 hn
      have htpw : 0 ≤ (seg.end_ - seg.start) / ((py_split (py_strip seg.text)).length : ℚ) := by
        apply div_nonneg
        · linarith [hwf.1]
        · positivity
      have hfall := fallback_go_sorted seg.start
        ((seg.end_ - seg.start) / ((py_split (py_strip seg.text)).length : ℚ))
        k.toNat (by omega) htpw (py_split (py_strip seg.text)).length
        (py_split (py_strip seg.text)) 0 (le_refl _)
      refine ⟨?_, hfall.2⟩
      intro c hc
      obtain ⟨hlo, hmid, hhi⟩ := hfall.1 c hc
      refine ⟨?_, hmid, ?_⟩
      · simpa using hlo
      · refine le_trans hhi (le_of_eq ?_)
        push_cast
        rw [zero_add, mul_div_cancel₀ _ hnq]
        ring
    · rw [if_neg hlen]
      refine ⟨?_, List.chain'_singleton _⟩
      intro c hc
      rcases List.mem_singleton.1 hc with rfl
      exact ⟨le_refl _, hwf.1, le_refl _⟩
  · unfold process_segment
    rw [if_pos hw]
    exact split_chunks_sorted k seg hwf

theorem process_segments_sorted (k : ℤ) (hk : 1 ≤ k) :
    ∀ (segs : List Segment) (lo : ℚ),
      (∀ s ∈ segs, SegmentWellFormed s) →
      List.Chain' (fun a b : Segment => a.end_ ≤ b.start) segs →
      (∀ s₀ ∈ segs.head?, lo ≤ s₀.start) →
      (∀ c ∈ process_segments k segs, lo ≤ c.start ∧ c.start ≤ c.end_) ∧
      List.Chain' chunk_rel (process_segments k segs)
  | [], lo, _, _, _ => ⟨by simp [process_segments], by simp [process_segments, List.chain'_nil]⟩
  | s₁ :: rest, lo, hwf, hch, hlo => by
    have hs₁ := process_segment_sorted k hk s₁ (hwf s₁ (by simp))
    have hlo₁ : lo ≤ s₁.start := hlo s₁ rfl
    have hrestlo : ∀ s₀ ∈ rest.head?, s₁.end_ ≤ s₀.start :=
      (List.chain'_cons'.1 hch).1
    have hrest := process_segments_sorted k hk rest s₁.end_
      (fun s hs => hwf s (List.mem_cons_of_mem _ hs)) (List.chain'_cons'.1 hch).2 hrestlo
    have hunfold : process_segments k (s₁ :: rest) =
        process_segment k s₁ ++ process_segments k rest := by
      rw [process_segments, List.map_cons, List.flatten_cons]
      rfl
    constructor
    · intro c hc
      rw [hunfold] at hc
      rcases List.mem_append.1 hc with hc₁ | hc₂
      · obtain ⟨h1, h2, _⟩ := hs₁.1 c hc₁
        exact ⟨le_trans hlo₁ h1, h2⟩
      · obtain ⟨h1, h2⟩ := hrest.1 c hc₂
        have hspan : s₁.start ≤ s₁.end_ := (hwf s₁ (by simp)).1
        exact ⟨le_trans hlo₁ (le_trans hspan h1), h2⟩
    · rw [hunfold]
      apply List.chain'_append.2
      refine ⟨hs₁.2, hrest.2, ?_⟩
      intro x hx y hy
      have hxmem : x ∈ process_segment k s₁ := List.mem_of_mem_getLast? hx
      have hymem : y ∈ process_segments k rest := List.mem_of_mem_head? hy
      show x.end_ ≤ y.start
      have hxe : x.end_ ≤ s₁.end_ := (hs₁.1 x hxmem).2.2
      have hys : s₁.end_ ≤ y.start := (hrest.1 y hymem).1
      exact le_trans hxe hys

theorem chain_rel_to_pair :
    ∀ (cs : List Chunk), (∀ c ∈ cs, c.start ≤ c.end_) →
      List.Chain' chunk_rel cs →
      List.Chain' (fun a b : Chunk => a.start ≤ b.start ∧ a.end_ ≤ b.end_) cs
  | [], _, _ => List.chain'_nil
  | [_], _, _ => List.chain'_singleton _
  | a :: b :: t, hse, hch => by
    obtain ⟨hab, hrest⟩ := List.chain'_cons.1 hch
    rw [List.chain'_cons]
    refine ⟨⟨?_, ?_⟩, chain_rel_to_pair (b :: t) (fun c hc => hse c (List.mem_cons_of_mem _ hc)) hrest⟩
    · exact le_trans (hse a (by simp)) hab
    · exact le_trans hab (hse b (by simp [List.mem_cons]))

/-! ## C9: cue numbering and monotonicity -/

/-- C9: for every input segment sequence (and every `maxWords`), the indices
written to the SRT file are exactly `1..len(cues)`, contiguous with no gaps;
and when additionally `maxWords ≥ 1` and the source segments' and words'
timestamps are non-decreasing (`SegmentsMonotone`), every cue satisfies
`start ≤ end` and both endpoints are non-decreasing across successive cues. -/
theorem cue_numbering_monotone (segs : List Segment) (k : ℤ) :
    (srt_entries (process_segments k segs)).map Prod.fst =
      List.range' 1 (process_segments k segs).length ∧
    (1 ≤ k → SegmentsMonotone segs →
      (∀ c ∈ process_segments k segs, c.start ≤ c.end_) ∧
      List.Chain' (fun a b : Chunk => a.start ≤ b.start ∧ a.end_ ≤ b.end_)
        (process_segments k segs)) := by
  refine ⟨enumFrom_map_fst _ 1, ?_⟩
  intro hk h
  obtain ⟨hwf, hch⟩ := h
  have hmain := process_segments_sorted k hk segs
    (match segs with
      | [] => 0
      | s :: _ => s.start)
    hwf hch
    (by
      rcases segs with _ | ⟨s, t⟩
      · simp
      · intro s₀ hs₀
        rcases hs₀
        exact le_refl _)
  refine ⟨fun c hc => (hmain.1 c hc).2, ?_⟩
  exact chain_rel_to_pair _ (fun c hc => (hmain.1 c hc).2) hmain.2

/-- Witness for C9: the unconditional numbering conjunct instantiated both on
a non-monotone single-segment input and on a two-segment monotone input (a
word-timestamped segment followed by a fallback segment, `maxWords = 1`), for
which the monotonicity hypotheses are also discharged. -/
theorem cue_numbering_monotone_witness :
    ((srt_entries (process_segments 5 [⟨5, 1, "z", []⟩])).map Prod.fst =
      List.range' 1 (process_segments 5 [⟨5, 1, "z", []⟩]).length) ∧
    ((1 : ℤ) ≤ 1 ∧
      SegmentsMonotone [⟨0, 2, "a b", [⟨0, 1, "a"⟩, ⟨1, 2, "b"⟩]⟩, ⟨2, 3, "c", []⟩]) ∧
    ((srt_entries (process_segments 1
          [⟨0, 2, "a b", [⟨0, 1, "a"⟩, ⟨1, 2, "b"⟩]⟩, ⟨2, 3, "c", []⟩])).map Prod.fst =
        List.range' 1 (process_segments 1
          [⟨0, 2, "a b", [⟨0, 1, "a"⟩, ⟨1, 2, "b"⟩]⟩, ⟨2, 3, "c", []⟩]).length ∧
      (∀ c ∈ process_segments 1
          [⟨0, 2, "a b", [⟨0, 1, "a"⟩, ⟨1, 2, "b"⟩]⟩, ⟨2, 3, "c", []⟩], c.start ≤ c.end_) ∧
      List.Chain' (fun a b : Chunk => a.start ≤ b.start ∧ a.end_ ≤ b.end_)
        (process_segments 1 [⟨0, 2, "a b", [⟨0, 1, "a"⟩, ⟨1, 2, "b"⟩]⟩, ⟨2, 3, "c", []⟩])) :=
  have hmono : SegmentsMonotone [⟨0, 2, "a b", [⟨0, 1, "a"⟩, ⟨1, 2, "b"⟩]⟩, ⟨2, 3, "c", []⟩] := by
    constructor
    · intro s hs
      simp only [List.mem_cons, List.mem_singleton, List.not_mem_nil, or_false] at hs
      rcases hs with rfl | rfl
      · refine ⟨by norm_num, ?_, ?_⟩
        · intro w hw
          simp only [List.mem_cons, List.mem_singleton, List.not_mem_nil, or_false] at hw
          rcases hw with rfl | rfl
          · refine ⟨by norm_num, by norm_num, by norm_num⟩
          · refine ⟨by norm_num, by norm_num, by norm_num⟩
        · simp only [List.chain'_cons, List.chain'_singleton, and_true]
          show (1 : ℚ) ≤ 1
          norm_num
      · refine ⟨by norm_num, by simp, by simp⟩
    · simp only [List.chain'_cons, List.chain'_singleton, and_true]
      show (2 : ℚ) ≤ 2
      norm_num
  ⟨(cue_numbering_monotone [⟨5, 1, "z", []⟩] 5).1, ⟨le_refl 1, hmono⟩,
    (cue_numbering_monotone [⟨0, 2, "a b", [⟨0, 1, "a"⟩, ⟨1, 2, "b"⟩]⟩, ⟨2, 3, "c", []⟩] 1).1,
    (cue_numbering_monotone [⟨0, 2, "a b", [⟨0, 1, "a"⟩, ⟨1, 2, "b"⟩]⟩, ⟨2, 3, "c", []⟩] 1).2
      (le_refl 1) hmono⟩

/-! ## C8 helper lemmas: Python numeric primitives on non-negative rationals -/

theorem py_int_intCast (z : ℤ) : py_int ((z : ℚ)) = z := by
  unfold py_int
  by_cases h : (0 : ℚ) ≤ (z : ℚ)
  · rw [if_pos h, Int.floor_intCast]
  · rw [if_neg h, ← Int.cast_neg, Int.floor_intCast, neg_neg]

theorem py_int_of_nonneg {x : ℚ} (h : 0 ≤ x) : py_int x = ⌊x⌋ := if_pos h

theorem floor_div_natCast {x : ℚ} (hx : 0 ≤ x) (n : ℕ) :
    ⌊x / ((n : ℕ) : ℚ)⌋ = ((⌊x⌋.toNat / n : ℕ) : ℤ) := by
  have h1 : 0 ≤ x / ((n : ℕ) : ℚ) := div_nonneg hx (Nat.cast_nonneg n)
  rw [← Int.toNat_of_nonneg (Int.floor_nonneg.2 h1)]
  congr 1
  rw [Int.floor_toNat, Nat.floor_div_nat, ← Int.floor_toNat]

theorem timestamp_law_general (s : ℚ) (hs : 0 ≤ s) : TimestampLaw s := by
  have h36 : ((3600 : ℕ) : ℚ) = (3600 : ℚ) := by norm_cast
  have h60 : ((60 : ℕ) : ℚ) = (60 : ℚ) := by norm_cast
  have h1000 : ((1000 : ℕ) : ℚ) = (1000 : ℚ) := by norm_cast
  have hFcast : ((⌊s⌋.toNat : ℤ)) = ⌊s⌋ := Int.toNat_of_nonneg (Int.floor_nonneg.2 hs)
  -- hours
  have hhours : py_int (py_floordiv s 3600) = ((⌊s⌋.toNat / 3600 : ℕ) : ℤ) := by
    show py_int ((⌊s / (3600 : ℚ)⌋ : ℤ) : ℚ) = _
    rw [py_int_intCast, ← h36, floor_div_natCast hs]
  -- minutes
  have hq : ⌊s / (3600 : ℚ)⌋ = ((⌊s⌋.toNat / 3600 : ℕ) : ℤ) := by
    rw [← h36]
    exact floor_div_natCast hs 3600
  have hr_def : py_mod s 3600 = s - 3600 * ((⌊s / (3600 : ℚ)⌋ : ℤ) : ℚ) := rfl
  have hq_le : ((⌊s / (3600 : ℚ)⌋ : ℤ) : ℚ) * 3600 ≤ s := by
    have h1 := Int.floor_le (s / (3600 : ℚ))
    have h2 := mul_le_mul_of_nonneg_right h1 (by norm_num : (0 : ℚ) ≤ 3600)
    rwa [div_mul_cancel₀ s (by norm_num : (3600 : ℚ) ≠ 0)] at h2
  have hr_nonneg : 0 ≤ py_mod s 3600 := by
    rw [hr_def]
    linarith
  have hminutes : py_int (py_floordiv (py_mod s 3600) 60) =
      ((⌊s⌋.toNat % 3600 / 60 : ℕ) : ℤ) := by
    show py_int ((⌊py_mod s 3600 / (60 : ℚ)⌋ : ℤ) : ℚ) = _
    rw [py_int_intCast, ← h60, floor_div_natCast hr_nonneg]
    have hfloor_r : ⌊py_mod s 3600⌋ = ⌊s⌋ - 3600 * ⌊s / (3600 : ℚ)⌋ := by
      rw [hr_def]
      have hcast : (3600 : ℚ) * ((⌊s / (3600 : ℚ)⌋ : ℤ) : ℚ) =
          (((3600 * ⌊s / (3600 : ℚ)⌋ : ℤ)) : ℚ) := by
        push_cast
        ring
      rw [hcast, Int.floor_sub_int]
    rw [hfloor_r, hq]
    omega
  -- seconds
  have hq60_le : ((⌊s / (60 : ℚ)⌋ : ℤ) : ℚ) * 60 ≤ s := by
    have h1 := Int.floor_le (s / (60 : ℚ))
    have h2 := mul_le_mul_of_nonneg_right h1 (by norm_num : (0 : ℚ) ≤ 60)
    rwa [div_mul_cancel₀ s (by norm_num : (60 : ℚ) ≠ 0)] at h2
  have hr2_def : py_mod s 60 = s - 60 * ((⌊s / (60 : ℚ)⌋ : ℤ) : ℚ) := rfl
  have hr2_nonneg : 0 ≤ py_mod s 60 := by
    rw [hr2_def]
    linarith
  have hsecs : py_int (py_mod s 60) = ((⌊s⌋.toNat % 60 : ℕ) : ℤ) := by
    rw [py_int_of_nonneg hr2_nonneg]
    have hfloor_r2 : ⌊py_mod s 60⌋ = ⌊s⌋ - 60 * ⌊s / (60 : ℚ)⌋ := by
      rw [hr2_def]
      have hcast : (60 : ℚ) * ((⌊s / (60 : ℚ)⌋ : ℤ) : ℚ) =
          (((60 * ⌊s / (60 : ℚ)⌋ : ℤ)) : ℚ) := by
        push_cast
        ring
      rw [hcast, Int.floor_sub_int]
    have hq60 : ⌊s / (60 : ℚ)⌋ = ((⌊s⌋.toNat / 60 : ℕ) : ℤ) := by
      rw [← h60]
      exact floor_div_natCast hs 60
    rw [hfloor_r2, hq60]
    omega
  -- milliseconds
  have hds : py_mod s 1 = s - ((⌊s⌋ : ℤ) : ℚ) := by
    show s - 1 * ((⌊s / (1 : ℚ)⌋ : ℤ) : ℚ) = _
    rw [div_one]
    ring
  have hfr_nonneg : 0 ≤ py_mod s 1 * 1000 := by
    rw [hds]
    have := Int.floor_le s
    nlinarith
  have hM_nonneg : 0 ≤ (1000 : ℚ) * s := by positivity
  have hMcast : ((⌊(1000 : ℚ) * s⌋.toNat : ℤ)) = ⌊(1000 : ℚ) * s⌋ :=
    Int.toNat_of_nonneg (Int.floor_nonneg.2 hM_nonneg)
  have hmillis : py_int (py_mod s 1 * 1000) = ((⌊(1000 : ℚ) * s⌋.toNat % 1000 : ℕ) : ℤ) := by
    rw [py_int_of_nonneg hfr_nonneg]
    have hexpand : py_mod s 1 * 1000 = (1000 : ℚ) * s - ((1000 * ⌊s⌋ : ℤ) : ℚ) := by
      rw [hds]
      push_cast
      ring
    rw [hexpand, Int.floor_sub_int]
    have hFnM : ⌊s⌋.toNat = ⌊(1000 : ℚ) * s⌋.toNat / 1000 := by
      have h1 := floor_div_natCast hM_nonneg 1000
      have h2 : ((1000 : ℚ) * s) / ((1000 : ℕ) : ℚ) = s := by
        rw [h1000]
        field_simp
      rw [h2] at h1
      omega
    omega
  have hfmt : format_timestamp s =
      pad_int 2 (py_int (py_floordiv s 3600)) ++ ":" ++
      pad_int 2 (py_int (py_floordiv (py_mod s 3600) 60)) ++ ":" ++
      pad_int 2 (py_int (py_mod s 60)) ++ "," ++
      pad_int 3 (py_int (py_mod s 1 * 1000)) := rfl
  unfold TimestampLaw
  rw [hfmt, hhours, hminutes, hsecs, hmillis]

/-! ## C8: timestamp formatting -/

/-- C8: for every non-negative number of seconds, `format_timestamp` produces
zero-padded `HH:MM:SS,mmm` with unbounded hours and truncated (not rounded)
milliseconds; in particular `format_timestamp 3725.4567 = "01:02:05,456"` and
`format_timestamp 0 = "00:00:00,000"`. -/
theorem format_timestamp_law (s : ℚ) (hs : 0 ≤ s) :
    TimestampLaw s ∧
    format_timestamp (3725.4567 : ℚ) = "01:02:05,456" ∧
    format_timestamp 0 = "00:00:00,000" := by
  refine ⟨timestamp_law_general s hs, ?_, ?_⟩
  · have h := timestamp_law_general (3725.4567 : ℚ) (by norm_num)
    unfold TimestampLaw at h
    rw [h]
    have hf1 : ⌊(3725.4567 : ℚ)⌋ = 3725 := by
      rw [Int.floor_eq_iff]
      norm_num
    have hf2 : ⌊(1000 : ℚ) * 3725.4567⌋ = 3725456 := by
      have hmul : (1000 : ℚ) * 3725.4567 = 3725456.7 := by norm_num
      rw [hmul, Int.floor_eq_iff]
      norm_num
    rw [hf1, hf2]
    decide
  · have h := timestamp_law_general 0 (le_refl 0)
    unfold TimestampLaw at h
    rw [h]
    have hz2 : ⌊(1000 : ℚ) * 0⌋ = 0 := by
      rw [mul_zero]
      exact Int.floor_zero
    rw [Int.floor_zero, hz2]
    decide

/-- Witness for C8 at `s = 0`. -/
theorem format_timestamp_law_witness :
    (0 : ℚ) ≤ 0 ∧
      (TimestampLaw 0 ∧
        format_timestamp (3725.4567 : ℚ) = "01:02:05,456" ∧
        format_timestamp 0 = "00:00:00,000") :=
  ⟨le_refl 0, format_timestamp_law 0 (le_refl 0)⟩

end ShortGen
